import Mathlib

/-!
# Verification of the cdisplayagain asynchronous page-rendering pipeline

Shallow embedding, in Lean 4, of the pipeline components of the comic
viewer `cdisplayagain.py` / `image_backend.py`:

* `natural_key` and the Python comparison semantics of the keys it builds,
* the fixed-capacity `LRUCache` used as the render cache,
* the bounded `PriorityQueue` work queue and `ImageWorker` request logic,
* the page-source loaders (`load_cbz`, `load_image_file`),
* the width-driven resize arithmetic of `image_backend`,
* the navigation / worker / UI-apply step functions of `ComicViewer`
  (`next_page`, `prev_page`, `_render_current`, `ImageWorker._run`,
  `_update_from_cache`), modelled as explicit state-passing functions so
  that interleavings of UI and worker steps can be replayed as traces.

Strings are modelled as `List Char`; Python byte strings as `List Nat`.
Character classification (`str.isdigit`, the regex class `\d`, `casefold`)
is modelled at ASCII fidelity, where the two digit classifications used by
`natural_key` coincide.
-/

namespace CDisplayAgain

/-! ## natural_key (cdisplayagain.py lines 98-101)

`natural_key(s)` is
`[int(t) if t.isdigit() else t.casefold() for t in re.split(r"(\d+)", s)]`.

`reSplitDigits` embeds `re.split(r"(\d+)", s)`: the string is cut at the
maximal runs of digits, the runs themselves are kept (the regex group is
capturing), and the result alternates text pieces (possibly empty) with
nonempty digit runs, starting and ending with a text piece. -/

/-- Embedding of `re.split(r"(\d+)", s)` on a list of characters.
Structurally recursive: a character is prepended to the split of the tail,
either extending the leading text piece (non-digit), extending a leading
digit run that directly follows an empty text piece (digit), or opening a
fresh digit run (digit after nonempty text). -/
def reSplitDigits : List Char → List (List Char)
  | [] => [[]]
  | c :: cs =>
    match reSplitDigits cs with
    | [] => [[]]
    | t :: rest =>
      if c.isDigit then
        if t.isEmpty then
          match rest with
          | d :: rest2 => [] :: (c :: d) :: rest2
          | [] => [[], [c], []]
        else [] :: [c] :: t :: rest
      else (c :: t) :: rest

/-- Embedding of Python `t.isdigit()` for the ASCII fragment: nonempty and
all characters are decimal digits. -/
def pyIsDigit (t : List Char) : Bool :=
  !t.isEmpty && t.all Char.isDigit

/-- Embedding of `int(t)` for a string of ASCII decimal digits. -/
def digitsToNat (t : List Char) : Nat :=
  t.foldl (fun acc c => acc * 10 + (c.toNat - '0'.toNat)) 0

/-- One element of the key produced by `natural_key`: either a casefolded
text run or the integer value of a digit run. -/
inductive NKey where
  | str : List Char → NKey
  | num : Nat → NKey
deriving DecidableEq, Repr

/-- The key element built from one piece of the split:
`int(t) if t.isdigit() else t.casefold()` (ASCII casefold = lowercase). -/
def pieceKey (t : List Char) : NKey :=
  if pyIsDigit t then .num (digitsToNat t) else .str (t.map Char.toLower)

/-- Embedding of `natural_key` (cdisplayagain.py line 101): split at digit
runs, map digit runs to their integer value and text runs to their
casefolded text. -/
def naturalKey (s : List Char) : List NKey :=
  (reSplitDigits s).map pieceKey

/-- Embedding of Python `str < str`: lexicographic on code points. -/
def strLt : List Char → List Char → Bool
  | [], [] => false
  | [], _ :: _ => true
  | _ :: _, [] => false
  | a :: as, b :: bs => if a = b then strLt as bs else decide (a < b)

/-- Embedding of Python `<` on one key element. `int < int` and
`str < str` succeed; comparing an `int` with a `str` raises `TypeError`,
modelled as `none`. -/
def nkeyLt : NKey → NKey → Option Bool
  | .num a, .num b => some (decide (a < b))
  | .str a, .str b => some (strLt a b)
  | _, _ => none

/-- Embedding of Python `list.__lt__` on keys: find the first index whose
elements differ under `==` (which never raises, and is `False` across the
`int`/`str` divide) and compare there with `<`; if one list is a strict
prefix of the other the shorter is smaller. -/
def keyListLt : List NKey → List NKey → Option Bool
  | [], [] => some false
  | [], _ :: _ => some true
  | _ :: _, [] => some false
  | a :: as, b :: bs => if a = b then keyListLt as bs else nkeyLt a b

/-! ## LRUCache (cdisplayagain.py lines 114-157)

The render cache is a fixed-size LRU map built on `OrderedDict`; it is
embedded as an association list in dictionary insertion order, head =
least recently used, last = most recently used (`move_to_end` appends,
`popitem(last=False)` pops the head). -/

/-- Value stored for `k` in an association list (first matching entry; an
`OrderedDict` holds at most one entry per key). -/
def lookupKey {K V : Type} [DecidableEq K] (k : K) : List (K × V) → Option V
  | [] => none
  | e :: es => if e.1 = k then some e.2 else lookupKey k es

/-- Remove the entry for `k` (the first matching entry). -/
def removeKey {K V : Type} [DecidableEq K] (k : K) : List (K × V) → List (K × V)
  | [] => []
  | e :: es => if e.1 = k then es else e :: removeKey k es

/-- Embedding of `LRUCache.__init__`: the capacity and the `OrderedDict`
contents. The constructor rejects `maxsize <= 0`. -/
structure LRUCache (K V : Type) where
  maxsize : Nat
  cache : List (K × V)

/-- Well-formedness: a constructed cache has positive capacity, unique
keys, and never more entries than its capacity. -/
def lruWF {K V : Type} (c : LRUCache K V) : Prop :=
  0 < c.maxsize ∧ (c.cache.map Prod.fst).Nodup ∧ c.cache.length ≤ c.maxsize

/-- Embedding of `LRUCache.get`: on a hit, `move_to_end` and return the
value; on a miss return `None` and leave the dictionary untouched. -/
def lruGet {K V : Type} [DecidableEq K] (c : LRUCache K V) (k : K) :
    Option V × LRUCache K V :=
  match lookupKey k c.cache with
  | none => (none, c)
  | some v => (some v, ⟨c.maxsize, removeKey k c.cache ++ [(k, v)]⟩)

/-- Embedding of `LRUCache.__setitem__`: an existing key is moved to the
end and overwritten; otherwise, at capacity, `popitem(last=False)` evicts
the head before the new entry is appended. -/
def lruSet {K V : Type} [DecidableEq K] (c : LRUCache K V) (k : K) (v : V) :
    LRUCache K V :=
  if (lookupKey k c.cache).isSome then
    ⟨c.maxsize, removeKey k c.cache ++ [(k, v)]⟩
  else if c.maxsize ≤ c.cache.length then
    ⟨c.maxsize, c.cache.tail ++ [(k, v)]⟩
  else
    ⟨c.maxsize, c.cache ++ [(k, v)]⟩

/-- One observable cache operation: a `get` or a `cache[key] = value`. -/
inductive LRUOp (K V : Type) where
  | get : K → LRUOp K V
  | set : K → V → LRUOp K V

/-- Apply one operation (the value returned by `get` is dropped). -/
def lruStep {K V : Type} [DecidableEq K] (c : LRUCache K V) : LRUOp K V → LRUCache K V
  | .get k => (lruGet c k).2
  | .set k v => lruSet c k v

/-- Run a sequence of operations left to right. -/
def lruRun {K V : Type} [DecidableEq K] (c : LRUCache K V) (ops : List (LRUOp K V)) :
    LRUCache K V :=
  ops.foldl lruStep c

/-! ## Work queue (cdisplayagain.py lines 380-409)

`ImageWorker` owns a `queue.PriorityQueue(maxsize=4)` holding the Python
tuples `(priority, index, width, height, preload, render_generation)`.
`PriorityQueue.get` returns a smallest element under Python's
lexicographic tuple comparison (equal tuples are indistinguishable, so
which of several equal minima is removed is unobservable); the queue
contents are modelled as the list of items in enqueue order. -/

/-- A work item: the tuple enqueued by `ImageWorker.request_page`. -/
structure WorkItem where
  priority : Nat
  index : Nat
  width : Nat
  height : Nat
  preload : Bool
  gen : Nat
deriving DecidableEq, Repr

/-- Python compares `bool` inside a tuple as the integer 0 or 1. -/
def boolNat (b : Bool) : Nat := if b then 1 else 0

/-- Lexicographic `<` on lists of naturals (Python tuple comparison). -/
def natsLt : List Nat → List Nat → Bool
  | [], [] => false
  | [], _ :: _ => true
  | _ :: _, [] => false
  | a :: as, b :: bs => if a = b then natsLt as bs else decide (a < b)

/-- The comparison key of a work item: its Python tuple. -/
def itemKey (x : WorkItem) : List Nat :=
  [x.priority, x.index, x.width, x.height, boolNat x.preload, x.gen]

/-- Python `<` on work-item tuples. -/
def itemLt (a b : WorkItem) : Bool := natsLt (itemKey a) (itemKey b)

/-- Python `<=` on work-item tuples (total order, so `a <= b ↔ ¬ b < a`). -/
def itemLe (a b : WorkItem) : Bool := !itemLt b a

/-- `PriorityQueue.get` on the queue contents: remove the first minimal
element under the tuple order. -/
def popMin : List WorkItem → Option (WorkItem × List WorkItem)
  | [] => none
  | x :: xs =>
    match popMin xs with
    | none => some (x, [])
    | some (m, rest) => if itemLe x m then some (x, xs) else some (m, x :: rest)

/-- The work queue is constructed with `maxsize=4`. -/
def imageWorkerQueueMaxsize : Nat := 4

/-- Embedding of `ImageWorker.request_page`: priority 1 for speculative
preloads, 0 for foreground requests; `put_nowait` on a full queue raises
`queue.Full`, which is caught, silently dropping the item. -/
def requestPage (q : List WorkItem) (index width height : Nat)
    (preloadFlag : Bool) (renderGeneration : Nat) : List WorkItem :=
  if imageWorkerQueueMaxsize ≤ q.length then q
  else q ++
    [⟨if preloadFlag then 1 else 0, index, width, height, preloadFlag, renderGeneration⟩]

/-! ## File-name classification (cdisplayagain.py lines 38, 104-111) -/

/-- `IMAGE_EXTS`. -/
def imageExts : List (List Char) :=
  [".jpg".toList, ".jpeg".toList, ".png".toList, ".gif".toList, ".webp".toList,
    ".bmp".toList, ".tif".toList, ".tiff".toList]

/-- `Path(name).name`: the text after the last slash (archive entry names
ending in a slash are filtered out before this is ever applied). -/
def lastComponent (name : List Char) : List Char :=
  (name.reverse.takeWhile (fun c => c ≠ '/')).reverse

/-- `Path(name).suffix`: the part of the final component from its last
dot on, empty when there is no dot, when the only dot leads (a hidden
file) or when the dot is the final character. -/
def pathSuffix (name : List Char) : List Char :=
  let base := lastComponent name
  let revAfter := base.reverse.takeWhile (fun c => c ≠ '.')
  if revAfter.length = base.length then []
  else if revAfter.length = 0 then []
  else if revAfter.length = base.length - 1 then []
  else '.' :: revAfter.reverse

/-- Embedding of `is_image_name`: casefolded suffix in `IMAGE_EXTS`. -/
def isImageName (name : List Char) : Bool :=
  imageExts.contains ((pathSuffix name).map Char.toLower)

/-- Embedding of `is_text_name`: casefolded suffix `.nfo` or `.txt`. -/
def isTextName (name : List Char) : Bool :=
  [".nfo".toList, ".txt".toList].contains ((pathSuffix name).map Char.toLower)

/-! ## Page sources (cdisplayagain.py lines 160-166, 214-240, 367-377) -/

/-- Python `key(a) < key(b)` for natural keys, as a `Bool`. -/
def nameLtByKey (a b : List Char) : Bool :=
  keyListLt (naturalKey a) (naturalKey b) == some true

/-- Stable insertion: the new element goes after every element it is not
strictly below. -/
def insertByKey (x : List Char) : List (List Char) → List (List Char)
  | [] => [x]
  | y :: ys => if nameLtByKey x y then x :: y :: ys else y :: insertByKey x ys

/-- Embedding of `list.sort(key=natural_key)`: Python's sort is stable
and ascending, and a stable ascending sort is unique, so insertion sort
computes the same list. -/
def sortByNaturalKey (l : List (List Char)) : List (List Char) :=
  l.foldl (fun acc n => insertByKey n acc) []

/-- Embedding of `load_cbz` at the level of the archive's entry-name
list: entries ending in `/` are directories and skipped; text names
sorted by natural key precede image names sorted by natural key; an
archive yielding no pages is a `RuntimeError`. -/
def loadCbzPages (names : List (List Char)) : Except (List Char) (List (List Char)) :=
  let files := names.filter (fun n => !(n.getLast? == some '/'))
  let textNames := files.filter isTextName
  let imageNames := files.filter isImageName
  let pages := sortByNaturalKey textNames ++ sortByNaturalKey imageNames
  if pages.isEmpty then .error "No images or info files found inside CBZ.".toList
  else .ok pages

/-- A page source: the ordered page names and the byte fetch; a fetch
returning `none` models a raised exception. -/
structure PageSourceM where
  pages : List (List Char)
  getBytes : List Char → Option (List Nat)

/-- Embedding of `load_image_file`: an existing image file becomes a
one-page source whose `get_bytes` ignores its argument and rereads the
file; anything else is a `RuntimeError`. -/
def loadImageFile (isFile : Bool) (fileName : List Char) (fileBytes : List Nat) :
    Except (List Char) PageSourceM :=
  if !isFile || !isImageName fileName then .error "Not an image file".toList
  else .ok { pages := [fileName], getBytes := fun _ => some fileBytes }

/-! ## Resize backend (image_backend.py lines 42-66)

Both `_resize_with_pyvips` and `_resize_with_pillow` compute
`scale = width / orig_w` from the width alone and never read their
`height` argument. The Pillow fallback resizes to
`(width, max(1, int(orig_h * scale)))`; with exact rational arithmetic in
place of Python floats, `int(orig_h * (width / orig_w))` truncates to
`orig_h * width / orig_w` in natural-number division. -/

/-- Output pixel dimensions of `_resize_with_pillow`. -/
def resizeWithPillowDims (origW origH width height : Nat) : Nat × Nat :=
  (width, max 1 (origH * width / origW))

/-! ## The rendering pipeline (cdisplayagain.py lines 380-444, 927-950,
1071-1114, 1293-1333)

The interacting pieces of `ComicViewer` and `ImageWorker` are embedded as
step functions over an explicit state, so that any interleaving of UI
actions, worker iterations and `after_idle` callbacks is a sequence of
function applications. Tk drawing (canvas items, scroll geometry, title,
overlay text) is external UI chrome and is represented only by the
`displayed`/`infoOverlay` fields. -/

/-- Modelled from the spec: `get_resized_pil` is imported by the worker
from the resize backend but is absent from `image_backend.py` (which only
defines the byte-level `get_resized_bytes`); per the spec it is the black
box "given raw bytes and a target box, produce a decoded, scaled image",
represented here by its three inputs. -/
structure ResizedImage where
  rawBytes : List Nat
  targetW : Nat
  targetH : Nat
deriving DecidableEq, Repr

/-- Modelled from the spec: see `ResizedImage`. -/
def getResizedPil (raw : List Nat) (width height : Nat) : ResizedImage :=
  ⟨raw, width, height⟩

/-- The `ComicViewer` fields the pipeline reads and writes. -/
structure ViewerState where
  source : Option PageSourceM
  currentIndex : Nat
  renderGeneration : Nat
  imageCache : LRUCache (Nat × Nat × Nat) ResizedImage
  displayed : Option ResizedImage
  infoOverlay : Bool
  scrollOffset : Nat
  firstProperRenderCompleted : Bool
  canvasProperlySized : Bool
  canvasW : Nat
  canvasH : Nat

/-- The pipeline state: the viewer, the work-queue contents, and the
callbacks scheduled on the Tk event loop via `after_idle` (in order). -/
structure SysState where
  viewer : ViewerState
  queue : List WorkItem
  pendingUi : List (Nat × ResizedImage)

/-- Embedding of `ComicViewer._update_from_cache` — the UI-thread
callback receiving `(index, img)` from a worker: discard when no source
is open or when `index` is not the currently displayed index; otherwise
cache the image under `(index, canvas_w, canvas_h)` (only once the canvas
is properly sized) and display it. It checks the index, never the
generation. -/
def updateFromCache (st : ViewerState) (index : Nat) (img : ResizedImage) :
    ViewerState :=
  match st.source with
  | none => st
  | some _ =>
    if index ≠ st.currentIndex then st
    else
      let cw := max 1 st.canvasW
      let ch := max 1 st.canvasH
      let st1 :=
        if st.canvasProperlySized then
          { st with imageCache := lruSet st.imageCache (index, cw, ch) img }
        else st
      { st1 with displayed := some img, firstProperRenderCompleted := true }

/-- Embedding of `ComicViewer._find_next_image_index`: the first index
after `start` whose page is not a text page. -/
def findNextImageIndex (pages : List (List Char)) (start : Nat) : Option Nat :=
  (List.range pages.length).find? fun i =>
    decide (start + 1 ≤ i) && !isTextName (pages.getD i [])

/-- `_dismiss_info` destroys the overlay if present. -/
def dismissInfo (st : ViewerState) : ViewerState := { st with infoOverlay := false }

/-- `_show_info_overlay`: no-op without a source or when an overlay is
already up. -/
def showInfoOverlay (st : ViewerState) : ViewerState :=
  match st.source with
  | none => st
  | some _ => if st.infoOverlay then st else { st with infoOverlay := true }

/-- Embedding of `ImageWorker.preload`: request the page speculatively at
the current canvas size; `request_page` is called without
`render_generation`, whose default is 0. -/
def preloadOp (s : SysState) (index : Nat) : SysState :=
  { s with
    queue := requestPage s.queue index (max 1 s.viewer.canvasW)
      (max 1 s.viewer.canvasH) true 0 }

/-- Embedding of `ComicViewer._render_info_with_image`. -/
def renderInfoWithImage (s : SysState) (src : PageSourceM) : SysState :=
  match findNextImageIndex src.pages s.viewer.currentIndex with
  | none =>
    { s with
      viewer := showInfoOverlay
        { s.viewer with displayed := none, scrollOffset := 0 } }
  | some imageIndex =>
    let cw := max 1 s.viewer.canvasW
    let ch := max 1 s.viewer.canvasH
    match lruGet s.viewer.imageCache (imageIndex, cw, ch) with
    | (some img, cache1) =>
      { s with
        viewer := showInfoOverlay
          { s.viewer with imageCache := cache1, displayed := some img } }
    | (none, _) =>
      { s with
        viewer := showInfoOverlay s.viewer,
        queue := requestPage s.queue imageIndex cw ch false
          s.viewer.renderGeneration }

/-- Embedding of `ComicViewer._render_current`: text pages go through the
overlay path; for an image page, a cache hit displays at once (the read
refreshes the LRU order) and a miss enqueues a foreground work item
tagged with the current generation; either way the next image page is
preloaded speculatively. -/
def renderCurrent (s : SysState) : SysState :=
  match s.viewer.source with
  | none => { s with viewer := { s.viewer with displayed := none } }
  | some src =>
    if isTextName (src.pages.getD s.viewer.currentIndex []) then
      renderInfoWithImage s src
    else
      let s1 : SysState := { s with viewer := dismissInfo s.viewer }
      let idx := s1.viewer.currentIndex
      let cw := max 1 s1.viewer.canvasW
      let ch := max 1 s1.viewer.canvasH
      let s2 : SysState :=
        match lruGet s1.viewer.imageCache (idx, cw, ch) with
        | (some img, cache1) =>
          { s1 with viewer :=
              { s1.viewer with imageCache := cache1, displayed := some img } }
        | (none, _) =>
          { s1 with queue :=
              requestPage s1.queue idx cw ch false s1.viewer.renderGeneration }
      match findNextImageIndex src.pages idx with
      | some nidx => preloadOp s2 nidx
      | none => s2

/-- Embedding of `ComicViewer.next_page`: bump the index and the render
generation, then re-render. -/
def nextPage (s : SysState) : SysState :=
  match s.viewer.source with
  | none => s
  | some src =>
    if s.viewer.currentIndex < src.pages.length - 1 then
      renderCurrent { s with viewer := { s.viewer with
        currentIndex := s.viewer.currentIndex + 1,
        scrollOffset := 0,
        renderGeneration := s.viewer.renderGeneration + 1 } }
    else s

/-- Embedding of `ComicViewer.prev_page`. -/
def prevPage (s : SysState) : SysState :=
  match s.viewer.source with
  | none => s
  | some _ =>
    if 0 < s.viewer.currentIndex then
      renderCurrent { s with viewer := { s.viewer with
        currentIndex := s.viewer.currentIndex - 1,
        scrollOffset := 0,
        renderGeneration := s.viewer.renderGeneration + 1 } }
    else s

/-- One worker iteration of `ImageWorker._run` on a dequeued item: a
non-speculative item whose generation differs from the viewer's current
generation at dequeue time is skipped (this test runs on the worker
thread); otherwise the page bytes are fetched and resized. Any exception
(index out of range, fetch failure) is caught and the item dropped. -/
def workerProcess (appGen : Nat) (src : PageSourceM) (item : WorkItem) :
    Option (Nat × ResizedImage) :=
  if !item.preload && item.gen != appGen then none
  else
    match src.pages.get? item.index with
    | none => none
    | some name =>
      match src.getBytes name with
      | none => none
      | some raw => some (item.index, getResizedPil raw item.width item.height)

/-- A worker thread pops the minimal queued item and processes it; a
produced result is handed to the UI thread by appending an `after_idle`
callback. -/
def workerStep (s : SysState) : SysState :=
  match popMin s.queue with
  | none => s
  | some (item, rest) =>
    match s.viewer.source with
    | none => { s with queue := rest }
    | some src =>
      match workerProcess s.viewer.renderGeneration src item with
      | none => { s with queue := rest }
      | some res => { s with queue := rest, pendingUi := s.pendingUi ++ [res] }

/-- The UI thread runs the oldest scheduled callback
(`_update_from_cache`). -/
def uiStep (s : SysState) : SysState :=
  match s.pendingUi with
  | [] => s
  | r :: rest =>
    { s with viewer := updateFromCache s.viewer r.1 r.2, pendingUi := rest }

/-- A two-image-page source for replaying concrete pipeline traces. -/
def demoSource : PageSourceM :=
  { pages := ["p1.jpg".toList, "p2.jpg".toList],
    getBytes := fun n => some (n.map Char.toNat) }

/-- A freshly displayed viewer on page 0 of `demoSource`, canvas 800x600,
generation 0, empty cache, empty queue. -/
def demoStart : SysState where
  viewer :=
    { source := some demoSource
      currentIndex := 0
      renderGeneration := 0
      imageCache := ⟨20, []⟩
      displayed := none
      infoOverlay := false
      scrollOffset := 0
      firstProperRenderCompleted := true
      canvasProperlySized := true
      canvasW := 800
      canvasH := 600 }
  queue := []
  pendingUi := []

/-- Trace: render page 0 (enqueues the foreground request at generation 0
plus a speculative preload of page 1). -/
def demoS1 : SysState := renderCurrent demoStart

/-- A worker dequeues the foreground item; its generation (0) passes the
dequeue-time check, and the decoded result is scheduled on the UI
thread. -/
def demoS2 : SysState := workerStep demoS1

/-- The user navigates forward (index 1, generation 1) before the UI
callback runs. -/
def demoS3 : SysState := nextPage demoS2

/-- The user navigates back (index 0, generation 2); the stale callback
is still pending. -/
def demoS4 : SysState := prevPage demoS3

/-- The pending callback finally runs. -/
def demoS5 : SysState := uiStep demoS4

/-- The image produced by the generation-0 request for page 0. -/
def demoImg : ResizedImage := getResizedPil ("p1.jpg".toList.map Char.toNat) 800 600

/-- A separate one-step state for the C8 witness. -/
def preloadDemoState : SysState where
  viewer :=
    { source := some demoSource
      currentIndex := 0
      renderGeneration := 7
      imageCache := ⟨20, []⟩
      displayed := none
      infoOverlay := false
      scrollOffset := 0
      firstProperRenderCompleted := true
      canvasProperlySized := true
      canvasW := 640
      canvasH := 480 }
  queue := []
  pendingUi := []

/-- Shape of the output of `re.split(r"(\d+)", s)`: pieces alternate
between digit-free text (flag `false`) and nonempty digit runs (flag
`true`), starting with text. -/
inductive SplitAlt : Bool → List (List Char) → Prop
  | nil (b : Bool) : SplitAlt b []
  | text (t : List Char) (l : List (List Char)) :
      t.all (fun c => !c.isDigit) = true → SplitAlt true l → SplitAlt false (t :: l)
  | run (d : List Char) (l : List (List Char)) :
      pyIsDigit d = true → SplitAlt false l → SplitAlt true (d :: l)

/-- Shape of a `natural_key` value: text elements at even positions,
integer elements at odd positions (flag `false` = text expected next). -/
inductive KeyAlt : Bool → List NKey → Prop
  | nil (b : Bool) : KeyAlt b []
  | str (s : List Char) (l : List NKey) :
      KeyAlt true l → KeyAlt false (.str s :: l)
  | num (n : Nat) (l : List NKey) :
      KeyAlt false l → KeyAlt true (.num n :: l)

theorem reSplitDigits_ne_nil (s : List Char) : reSplitDigits s ≠ [] := by
  cases s with
  | nil => simp [reSplitDigits]
  | cons c cs =>
    simp only [reSplitDigits]
    cases h : reSplitDigits cs with
    | nil => simp
    | cons t rest =>
      by_cases hc : c.isDigit <;> by_cases ht : t.isEmpty <;> cases rest <;>
        simp [hc, ht]

/-- One-step unfolding of `reSplitDigits` on a cons cell. -/
theorem reSplitDigits_cons (c : Char) (cs : List Char) :
    reSplitDigits (c :: cs) =
      match reSplitDigits cs with
      | [] => [[]]
      | t :: rest =>
        if c.isDigit then
          if t.isEmpty then
            match rest with
            | d :: rest2 => [] :: (c :: d) :: rest2
            | [] => [[], [c], []]
          else [] :: [c] :: t :: rest
        else (c :: t) :: rest := rfl

theorem reSplitDigits_cons_ne_single_nil (c : Char) (cs : List Char) :
    reSplitDigits (c :: cs) ≠ [[]] := by
  rw [reSplitDigits_cons]
  cases h : reSplitDigits cs with
  | nil => exact absurd h (reSplitDigits_ne_nil cs)
  | cons t rest =>
    by_cases hc : c.isDigit <;> by_cases ht : t.isEmpty <;> cases rest <;>
      simp [hc, ht]

/-- Appending a maximal digit run `d` followed by a string that does not
start with a digit splits as the empty text piece, the run, and the split
of the remainder. -/
theorem reSplit_digitRun_append (d s : List Char) (hd : pyIsDigit d = true)
    (hs : s.head?.all (fun c => !c.isDigit) = true) :
    reSplitDigits (d ++ s) = [] :: d :: reSplitDigits s := by
  induction d with
  | nil => simp [pyIsDigit] at hd
  | cons c d' ih =>
    have hc : c.isDigit = true := by
      have := hd
      simp [pyIsDigit, List.all_cons] at this
      exact this.1
    cases d' with
    | nil =>
      cases s with
      | nil => simp [reSplitDigits, hc]
      | cons x s' =>
        have hx : x.isDigit = false := by simpa using hs
        obtain ⟨t', rest', h'⟩ := List.exists_cons_of_ne_nil (reSplitDigits_ne_nil s')
        simp [reSplitDigits, h', hx, hc]
    | cons c2 d'' =>
      have hd' : pyIsDigit (c2 :: d'') = true := by
        simp [pyIsDigit, List.all_cons] at hd ⊢
        exact hd.2
      have ih' := ih hd'
      simp only [List.cons_append] at ih' ⊢
      rw [reSplitDigits_cons, ih']
      simp [hc]

/-- Splitting `p ++ d ++ s`, where `p` does not end with a digit, `d` is a
nonempty digit run and `s` does not start with a digit: the split of `p`
keeps all its pieces but the last text piece, which is then followed by
`d` and the split of `s`. -/
theorem reSplit_append (p d s : List Char)
    (hp : p.getLast?.all (fun a => !a.isDigit) = true)
    (hd : pyIsDigit d = true)
    (hs : s.head?.all (fun a => !a.isDigit) = true) :
    ∃ pre t, reSplitDigits p = pre ++ [t] ∧
      reSplitDigits (p ++ d ++ s) = pre ++ t :: d :: reSplitDigits s := by
  induction p with
  | nil =>
    exact ⟨[], [], rfl, by simpa using reSplit_digitRun_append d s hd hs⟩
  | cons c p' ih =>
    cases p' with
    | nil =>
      have hc : c.isDigit = false := by simpa using hp
      have h2 := reSplit_digitRun_append d s hd hs
      refine ⟨[], [c], ?_, ?_⟩
      · rw [reSplitDigits_cons]; simp [reSplitDigits, hc]
      · simp only [List.cons_append, List.nil_append] at h2 ⊢
        rw [reSplitDigits_cons, h2]; simp [hc]
    | cons c2 p'' =>
      have hp' : (c2 :: p'').getLast?.all (fun a => !a.isDigit) = true := by
        rwa [List.getLast?_cons_cons] at hp
      obtain ⟨pre', t', h1, h2⟩ := ih hp'
      simp only [List.cons_append] at h2 ⊢
      by_cases hc : c.isDigit
      · cases pre' with
        | nil =>
          simp only [List.nil_append] at h1 h2
          cases t' with
          | nil => exact absurd h1 (reSplitDigits_cons_ne_single_nil c2 p'')
          | cons a t'' =>
            refine ⟨[[], [c]], a :: t'', ?_, ?_⟩
            · rw [reSplitDigits_cons, h1]; simp [hc]
            · rw [reSplitDigits_cons, h2]; simp [hc]
        | cons u pre'' =>
          cases u with
          | cons b u' =>
            refine ⟨[] :: [c] :: (b :: u') :: pre'', t', ?_, ?_⟩
            · rw [reSplitDigits_cons, h1]; simp [hc]
            · rw [reSplitDigits_cons, h2]; simp [hc]
          | nil =>
            cases pre'' with
            | nil =>
              refine ⟨[[]], c :: t', ?_, ?_⟩
              · rw [reSplitDigits_cons, h1]; simp [hc]
              · rw [reSplitDigits_cons, h2]; simp [hc]
            | cons r1 pre''' =>
              refine ⟨[] :: (c :: r1) :: pre''', t', ?_, ?_⟩
              · rw [reSplitDigits_cons, h1]; simp [hc]
              · rw [reSplitDigits_cons, h2]; simp [hc]
      · cases pre' with
        | nil =>
          simp only [List.nil_append] at h1 h2
          refine ⟨[], c :: t', ?_, ?_⟩
          · rw [reSplitDigits_cons, h1]; simp [hc]
          · rw [reSplitDigits_cons, h2]; simp [hc]
        | cons u pre'' =>
          refine ⟨(c :: u) :: pre'', t', ?_, ?_⟩
          · rw [reSplitDigits_cons, h1]; simp [hc]
          · rw [reSplitDigits_cons, h2]; simp [hc]

/-- Comparing two key lists with a common prefix reduces to comparing the
suffixes. -/
theorem keyListLt_append_left (x l1 l2 : List NKey) :
    keyListLt (x ++ l1) (x ++ l2) = keyListLt l1 l2 := by
  induction x with
  | nil => rfl
  | cons a x ih => simp [keyListLt, ih]

/-- C5: for all pairs of names that differ only in one numeric run (a
common prefix not ending in a digit, then a nonempty digit run, then a
common suffix not starting with a digit), the natural sort key of the name
with the smaller number is strictly less than the other; in particular
`key("2.png") < key("10.png")`, `key("009.png") < key("010.png")`,
`key("page2.png") < key("page10.png")` and
`key("page-001.png") < key("page-010.png")`. -/
theorem natural_key_smaller_numeric_run_sorts_first :
    (∀ p d1 d2 s : List Char,
        p.getLast?.all (fun a => !a.isDigit) = true →
        s.head?.all (fun a => !a.isDigit) = true →
        pyIsDigit d1 = true → pyIsDigit d2 = true →
        digitsToNat d1 < digitsToNat d2 →
        keyListLt (naturalKey (p ++ d1 ++ s)) (naturalKey (p ++ d2 ++ s)) = some true)
    ∧ keyListLt (naturalKey "2.png".toList) (naturalKey "10.png".toList) = some true
    ∧ keyListLt (naturalKey "009.png".toList) (naturalKey "010.png".toList) = some true
    ∧ keyListLt (naturalKey "page2.png".toList) (naturalKey "page10.png".toList) = some true
    ∧ keyListLt (naturalKey "page-001.png".toList) (naturalKey "page-010.png".toList)
        = some true := by
  refine ⟨?_, by decide, by decide, by decide, by decide⟩
  intro p d1 d2 s hp hs hd1 hd2 hlt
  obtain ⟨pre1, t1, h11, h12⟩ := reSplit_append p d1 s hp hd1 hs
  obtain ⟨pre2, t2, h21, h22⟩ := reSplit_append p d2 s hp hd2 hs
  have heq := h11.symm.trans h21
  obtain ⟨hpre, ht⟩ : pre1 = pre2 ∧ t1 = t2 := by
    have := List.append_inj' heq (by simp)
    simpa using this
  subst hpre ht
  have key1 : naturalKey (p ++ d1 ++ s) =
      (pre1.map pieceKey ++ [pieceKey t1]) ++
        (pieceKey d1 :: (reSplitDigits s).map pieceKey) := by
    unfold naturalKey; rw [h12]; simp
  have key2 : naturalKey (p ++ d2 ++ s) =
      (pre1.map pieceKey ++ [pieceKey t1]) ++
        (pieceKey d2 :: (reSplitDigits s).map pieceKey) := by
    unfold naturalKey; rw [h22]; simp
  rw [key1, key2, keyListLt_append_left]
  have hfd1 : pieceKey d1 = .num (digitsToNat d1) := by simp [pieceKey, hd1]
  have hfd2 : pieceKey d2 = .num (digitsToNat d2) := by simp [pieceKey, hd2]
  rw [hfd1, hfd2]
  have hne : (NKey.num (digitsToNat d1)) ≠ (NKey.num (digitsToNat d2)) := by
    simp; omega
  simp [keyListLt, hne, nkeyLt, hlt]

/-- Witness for C5 at the concrete split `"page" ++ "2"/"10" ++ ".png"`. -/
theorem natural_key_smaller_numeric_run_sorts_first_witness :
    keyListLt (naturalKey ("page".toList ++ "2".toList ++ ".png".toList))
        (naturalKey ("page".toList ++ "10".toList ++ ".png".toList)) = some true :=
  natural_key_smaller_numeric_run_sorts_first.1 "page".toList "2".toList "10".toList
    ".png".toList (by decide) (by decide) (by decide) (by decide) (by decide)

theorem pyIsDigit_eq_false_of_all_not (t : List Char)
    (h : t.all (fun c => !c.isDigit) = true) : pyIsDigit t = false := by
  cases t with
  | nil => rfl
  | cons a t' =>
    simp only [List.all_cons, Bool.and_eq_true, Bool.not_eq_true'] at h
    simp [pyIsDigit, List.all_cons, h.1]

/-- The split of any string alternates digit-free text pieces with
nonempty digit runs, starting with a text piece. -/
theorem reSplitDigits_alt (s : List Char) : SplitAlt false (reSplitDigits s) := by
  induction s with
  | nil => exact .text [] [] rfl (.nil true)
  | cons c cs ih =>
    obtain ⟨t, rest, hsplit⟩ := List.exists_cons_of_ne_nil (reSplitDigits_ne_nil cs)
    rw [hsplit] at ih
    rw [reSplitDigits_cons, hsplit]
    cases ih with
    | text _ _ htext hrest =>
      cases hc : c.isDigit with
      | false =>
        simp only [hc, Bool.false_eq_true, if_false]
        refine .text (c :: t) rest ?_ hrest
        simp [List.all_cons, hc, htext]
      | true =>
        cases t with
        | cons a t' =>
          simp only [hc, if_true, List.isEmpty_cons, Bool.false_eq_true, if_false]
          exact .text [] _ rfl (.run [c] _ (by simp [pyIsDigit, hc])
            (.text _ _ htext hrest))
        | nil =>
          cases hrest with
          | nil =>
            simp only [hc, if_true, List.isEmpty_nil]
            exact .text [] _ rfl (.run [c] _ (by simp [pyIsDigit, hc])
              (.text [] [] rfl (.nil true)))
          | run d rest2 hd hrest2 =>
            simp only [hc, if_true, List.isEmpty_nil]
            refine .text [] _ rfl (.run (c :: d) _ ?_ hrest2)
            simp only [pyIsDigit, Bool.and_eq_true, List.all_cons,
              Bool.not_eq_true'] at hd ⊢
            simp [hc, hd.2]

/-- `pieceKey` sends the alternating split shape to the alternating key
shape. -/
theorem keyAlt_of_splitAlt {b : Bool} {l : List (List Char)} (h : SplitAlt b l) :
    KeyAlt b (l.map pieceKey) := by
  induction h with
  | nil b => exact .nil b
  | text t l htext _ ih =>
    have : pieceKey t = .str (t.map Char.toLower) := by
      simp [pieceKey, pyIsDigit_eq_false_of_all_not t htext]
    simpa [this] using KeyAlt.str _ _ ih
  | run d l hd _ ih =>
    have : pieceKey d = .num (digitsToNat d) := by simp [pieceKey, hd]
    simpa [this] using KeyAlt.num _ _ ih

theorem naturalKey_alt (s : List Char) : KeyAlt false (naturalKey s) :=
  keyAlt_of_splitAlt (reSplitDigits_alt s)

/-- Comparison of two key lists of the same alternation phase never hits
the `int`-versus-`str` `TypeError` case. -/
theorem keyListLt_isSome_of_alt {b : Bool} {l1 l2 : List NKey}
    (h1 : KeyAlt b l1) (h2 : KeyAlt b l2) : (keyListLt l1 l2).isSome := by
  induction h1 generalizing l2 with
  | nil b => cases h2 <;> simp [keyListLt]
  | str s l hl ih =>
    cases h2 with
    | nil => simp [keyListLt]
    | str s2 l2 hl2 =>
      by_cases he : NKey.str s = NKey.str s2
      · simpa [keyListLt, he] using ih hl2
      · simp [keyListLt, he, nkeyLt]
  | num n l hl ih =>
    cases h2 with
    | nil => simp [keyListLt]
    | num n2 l2 hl2 =>
      by_cases he : NKey.num n = NKey.num n2
      · simpa [keyListLt, he] using ih hl2
      · simp [keyListLt, he, nkeyLt]

theorem strLt_asymm (a b : List Char) (h : strLt a b = true) : strLt b a = false := by
  induction a generalizing b with
  | nil => cases b <;> simp_all [strLt]
  | cons x as ih =>
    cases b with
    | nil => simp [strLt] at h
    | cons y bs =>
      by_cases hxy : x = y
      · subst hxy
        simp only [strLt, if_pos rfl] at h ⊢
        exact ih bs h
      · have hyx : y ≠ x := fun hyx => hxy hyx.symm
        simp only [strLt, if_neg hxy, decide_eq_true_eq] at h
        simp only [strLt, if_neg hyx, decide_eq_false_iff_not]
        exact lt_asymm h

theorem strLt_antisymm (a b : List Char) (h1 : strLt a b = false)
    (h2 : strLt b a = false) : a = b := by
  induction a generalizing b with
  | nil => cases b <;> simp_all [strLt]
  | cons x as ih =>
    cases b with
    | nil => simp [strLt] at h2
    | cons y bs =>
      by_cases hxy : x = y
      · subst hxy
        simp only [strLt, if_pos rfl] at h1 h2
        rw [ih bs h1 h2]
      · have hyx : y ≠ x := fun hyx => hxy hyx.symm
        simp only [strLt, if_neg hxy, decide_eq_false_iff_not] at h1
        simp only [strLt, if_neg hyx, decide_eq_false_iff_not] at h2
        exact absurd (lt_or_gt_of_ne hxy).elim (by tauto)

theorem nkeyLt_asymm (a b : NKey) (h : nkeyLt a b = some true) :
    nkeyLt b a = some false := by
  cases a <;> cases b <;> simp_all [nkeyLt]
  · exact strLt_asymm _ _ h
  · omega

theorem nkeyLt_antisymm (a b : NKey) (h1 : nkeyLt a b = some false)
    (h2 : nkeyLt b a = some false) : a = b := by
  cases a <;> cases b <;> simp_all [nkeyLt]
  · exact strLt_antisymm _ _ h1 h2
  · omega

theorem keyListLt_asymm (l1 l2 : List NKey) (h : keyListLt l1 l2 = some true) :
    keyListLt l2 l1 = some false := by
  induction l1 generalizing l2 with
  | nil => cases l2 <;> simp_all [keyListLt]
  | cons a as ih =>
    cases l2 with
    | nil => simp [keyListLt] at h
    | cons b bs =>
      by_cases hab : a = b
      · subst hab
        simp only [keyListLt, if_pos rfl] at h ⊢
        exact ih bs h
      · have hba : b ≠ a := fun hba => hab hba.symm
        simp only [keyListLt, if_neg hab] at h
        simp only [keyListLt, if_neg hba]
        exact nkeyLt_asymm a b h

theorem keyListLt_antisymm (l1 l2 : List NKey) (h1 : keyListLt l1 l2 = some false)
    (h2 : keyListLt l2 l1 = some false) : l1 = l2 := by
  induction l1 generalizing l2 with
  | nil => cases l2 <;> simp_all [keyListLt]
  | cons a as ih =>
    cases l2 with
    | nil => simp [keyListLt] at h2
    | cons b bs =>
      by_cases hab : a = b
      · subst hab
        simp only [keyListLt, if_pos rfl] at h1 h2
        rw [ih bs h1 h2]
      · have hba : b ≠ a := fun hba => hab hba.symm
        simp only [keyListLt, if_neg hab] at h1
        simp only [keyListLt, if_neg hba] at h2
        exact absurd (nkeyLt_antisymm a b h1 h2) hab

/-- C9: the natural keys of any two names compare without error — each key
alternates text runs at even positions and integer runs at odd positions,
so elementwise comparison never pairs an integer with a string — and the
induced comparison is total, asymmetric and antisymmetric, a total order
usable to sort any list of names. -/
theorem natural_key_comparison_total_order :
    (∀ a b : List Char, ∃ r, keyListLt (naturalKey a) (naturalKey b) = some r)
    ∧ (∀ a : List Char, KeyAlt false (naturalKey a))
    ∧ (∀ a b : List Char, keyListLt (naturalKey a) (naturalKey b) = some true →
        keyListLt (naturalKey b) (naturalKey a) = some false)
    ∧ (∀ a b : List Char, keyListLt (naturalKey a) (naturalKey b) = some false →
        keyListLt (naturalKey b) (naturalKey a) = some false →
        naturalKey a = naturalKey b) := by
  refine ⟨fun a b => ?_, naturalKey_alt, fun a b => keyListLt_asymm _ _,
    fun a b => keyListLt_antisymm _ _⟩
  have := keyListLt_isSome_of_alt (naturalKey_alt a) (naturalKey_alt b)
  exact Option.isSome_iff_exists.mp this

/-- Witness for C9 at the names `"page2"` and `"page10"`. -/
theorem natural_key_comparison_total_order_witness :
    (∃ r, keyListLt (naturalKey "page2".toList) (naturalKey "page10".toList) = some r)
    ∧ keyListLt (naturalKey "page10".toList) (naturalKey "page2".toList) = some false
    ∧ naturalKey "b".toList = naturalKey "B".toList :=
  ⟨natural_key_comparison_total_order.1 "page2".toList "page10".toList,
    natural_key_comparison_total_order.2.2.1 "page2".toList "page10".toList (by decide),
    natural_key_comparison_total_order.2.2.2 "b".toList "B".toList
      (by decide) (by decide)⟩

section LRULemmas

variable {K V : Type} [DecidableEq K]

theorem removeKey_sublist (k : K) (l : List (K × V)) : List.Sublist (removeKey k l) l := by
  induction l with
  | nil => simp [removeKey]
  | cons e es ih =>
    by_cases he : e.1 = k
    · rw [removeKey, if_pos he]
      exact List.sublist_cons_self e es
    · rw [removeKey, if_neg he]
      exact List.Sublist.cons₂ e ih

theorem length_removeKey_of_lookup (k : K) (l : List (K × V)) (v : V)
    (h : lookupKey k l = some v) : (removeKey k l).length + 1 = l.length := by
  induction l with
  | nil => simp [lookupKey] at h
  | cons e es ih =>
    by_cases he : e.1 = k
    · simp [removeKey, he]
    · simp only [lookupKey, if_neg he] at h
      simp [removeKey, he, ih h]

theorem lookupKey_eq_none_iff (k : K) (l : List (K × V)) :
    lookupKey k l = none ↔ k ∉ l.map Prod.fst := by
  induction l with
  | nil => simp [lookupKey]
  | cons e es ih =>
    by_cases he : e.1 = k
    · simp [lookupKey, he]
    · simp only [lookupKey, if_neg he, List.map_cons, List.mem_cons, ih]
      constructor
      · rintro h (h1 | h2)
        · exact he h1.symm
        · exact h h2
      · intro h h2
        exact h (Or.inr h2)

theorem not_mem_keys_removeKey (k : K) (l : List (K × V))
    (h : (l.map Prod.fst).Nodup) : k ∉ (removeKey k l).map Prod.fst := by
  induction l with
  | nil => simp [removeKey]
  | cons e es ih =>
    simp only [List.map_cons, List.nodup_cons] at h
    by_cases he : e.1 = k
    · rw [removeKey, if_pos he]
      subst he
      exact h.1
    · rw [removeKey, if_neg he]
      simp only [List.map_cons, List.mem_cons]
      rintro (h1 | h2)
      · exact he h1.symm
      · exact ih h.2 h2

theorem nodup_removeKey_append (k : K) (v : V) (l : List (K × V))
    (h : (l.map Prod.fst).Nodup) :
    ((removeKey k l ++ [(k, v)]).map Prod.fst).Nodup := by
  simp only [List.map_append, List.map_cons, List.map_nil]
  rw [List.nodup_append]
  refine ⟨h.sublist ((removeKey_sublist k l).map Prod.fst), List.nodup_singleton k, ?_⟩
  intro a ha hb
  rw [List.mem_singleton] at hb
  subst hb
  exact not_mem_keys_removeKey a l h ha

theorem lruStep_wf (c : LRUCache K V) (op : LRUOp K V) (h : lruWF c) :
    lruWF (lruStep c op) := by
  obtain ⟨hpos, hnd, hlen⟩ := h
  cases op with
  | get k =>
    simp only [lruStep, lruGet]
    cases hl : lookupKey k c.cache with
    | none => exact ⟨hpos, hnd, hlen⟩
    | some v =>
      refine ⟨hpos, nodup_removeKey_append k v c.cache hnd, ?_⟩
      have := length_removeKey_of_lookup k c.cache v hl
      simp only [List.length_append, List.length_cons, List.length_nil]
      omega
  | set k v =>
    simp only [lruStep, lruSet]
    by_cases hsome : (lookupKey k c.cache).isSome
    · rw [if_pos hsome]
      obtain ⟨v0, hv0⟩ := Option.isSome_iff_exists.mp hsome
      refine ⟨hpos, nodup_removeKey_append k v c.cache hnd, ?_⟩
      have := length_removeKey_of_lookup k c.cache v0 hv0
      simp only [List.length_append, List.length_cons, List.length_nil]
      omega
    · rw [if_neg hsome]
      have hknotin : k ∉ c.cache.map Prod.fst := by
        rw [← lookupKey_eq_none_iff]
        exact Option.not_isSome_iff_eq_none.mp hsome
      have htail : List.Sublist c.cache.tail c.cache := List.tail_sublist c.cache
      by_cases hfull : c.maxsize ≤ c.cache.length
      · rw [if_pos hfull]
        refine ⟨hpos, ?_, ?_⟩
        · simp only [List.map_append, List.map_cons, List.map_nil]
          rw [List.nodup_append]
          refine ⟨hnd.sublist (htail.map Prod.fst), List.nodup_singleton k, ?_⟩
          intro a ha hb
          rw [List.mem_singleton] at hb
          subst hb
          exact hknotin (((htail.map Prod.fst).subset) ha)
        · simp only [List.length_append, List.length_cons, List.length_nil,
            List.length_tail]
          omega
      · rw [if_neg hfull]
        refine ⟨hpos, ?_, ?_⟩
        · simp only [List.map_append, List.map_cons, List.map_nil]
          rw [List.nodup_append]
          refine ⟨hnd, List.nodup_singleton k, ?_⟩
          intro a ha hb
          rw [List.mem_singleton] at hb
          subst hb
          exact hknotin ha
        · simp only [List.length_append, List.length_cons, List.length_nil]
          omega

theorem lruRun_wf (c : LRUCache K V) (ops : List (LRUOp K V)) (h : lruWF c) :
    lruWF (lruRun c ops) := by
  induction ops generalizing c with
  | nil => exact h
  | cons op ops ih => exact ih (lruStep c op) (lruStep_wf c op h)

theorem lruStep_maxsize (c : LRUCache K V) (op : LRUOp K V) :
    (lruStep c op).maxsize = c.maxsize := by
  cases op with
  | get k =>
    simp only [lruStep, lruGet]
    cases lookupKey k c.cache <;> rfl
  | set k v =>
    simp only [lruStep, lruSet]
    split_ifs <;> rfl

theorem lruRun_maxsize (c : LRUCache K V) (ops : List (LRUOp K V)) :
    (lruRun c ops).maxsize = c.maxsize := by
  induction ops generalizing c with
  | nil => rfl
  | cons op ops ih => exact (ih (lruStep c op)).trans (lruStep_maxsize c op)

end LRULemmas

/-- C2: for every sequence of get/set operations on an LRU cache of
positive capacity `C` starting empty, the entry count never exceeds `C`
and no key appears twice; inserting a new key when the cache is full
evicts exactly the least-recently-used (head) entry, keeping the others
in order; a write or read of an existing key moves it to the
most-recently-used (last) position; and with capacity 2, inserting keys
A, B, then C evicts A, leaving B and C. -/
theorem lru_cache_strict_lru {K V : Type} [DecidableEq K] :
    (∀ C : Nat, 0 < C → ∀ ops : List (LRUOp K V),
        (lruRun ⟨C, []⟩ ops).cache.length ≤ C ∧
        ((lruRun ⟨C, []⟩ ops).cache.map Prod.fst).Nodup)
    ∧ (∀ (c : LRUCache K V) (k : K) (v : V),
        c.cache.length = c.maxsize → lookupKey k c.cache = none →
        (lruSet c k v).cache = c.cache.tail ++ [(k, v)])
    ∧ (∀ (c : LRUCache K V) (k : K) (v : V),
        (lookupKey k c.cache).isSome = true →
        (lruSet c k v).cache = removeKey k c.cache ++ [(k, v)] ∧
        (lruSet c k v).cache.getLast? = some (k, v))
    ∧ (∀ (c : LRUCache K V) (k : K) (v : V),
        lookupKey k c.cache = some v →
        (lruGet c k).2.cache = removeKey k c.cache ++ [(k, v)] ∧
        (lruGet c k).2.cache.getLast? = some (k, v))
    ∧ (lruRun (K := Nat) (V := Nat) ⟨2, []⟩
        [.set 0 10, .set 1 11, .set 2 12]).cache = [(1, 11), (2, 12)] := by
  refine ⟨?_, ?_, ?_, ?_, by decide⟩
  · intro C hC ops
    have h := lruRun_wf ⟨C, []⟩ ops ⟨hC, List.nodup_nil, Nat.zero_le C⟩
    have hm := lruRun_maxsize (⟨C, []⟩ : LRUCache K V) ops
    refine ⟨?_, h.2.1⟩
    have := h.2.2
    rw [hm] at this
    exact this
  · intro c k v hlen hlook
    rw [lruSet, if_neg (by simp [hlook]), if_pos (le_of_eq hlen.symm)]
  · intro c k v hsome
    have hset : (lruSet c k v).cache = removeKey k c.cache ++ [(k, v)] := by
      rw [lruSet, if_pos hsome]
    exact ⟨hset, by rw [hset]; exact List.getLast?_concat _⟩
  · intro c k v hlook
    have hget : (lruGet c k).2.cache = removeKey k c.cache ++ [(k, v)] := by
      simp only [lruGet, hlook]
    exact ⟨hget, by rw [hget]; exact List.getLast?_concat _⟩

/-- Witness for C2: capacity-1 cache holding key 5; a miss-insert of key 9
evicts key 5, and a get of key 5 in a two-entry cache moves it last. -/
theorem lru_cache_strict_lru_witness :
    ((lruRun (⟨3, []⟩ : LRUCache Nat Nat) [.set 0 1]).cache.length ≤ 3
      ∧ ((lruRun (⟨3, []⟩ : LRUCache Nat Nat) [.set 0 1]).cache.map Prod.fst).Nodup)
    ∧ (lruSet (⟨1, [(5, 7)]⟩ : LRUCache Nat Nat) 9 3).cache = [(5, 7)].tail ++ [(9, 3)]
    ∧ (lruGet (⟨2, [(5, 7), (6, 8)]⟩ : LRUCache Nat Nat) 5).2.cache.getLast?
        = some (5, 7) :=
  ⟨lru_cache_strict_lru.1 3 (by decide) [.set 0 1],
    lru_cache_strict_lru.2.1 ⟨1, [(5, 7)]⟩ 9 3 (by decide) (by decide),
    (lru_cache_strict_lru.2.2.2.1 ⟨2, [(5, 7), (6, 8)]⟩ 5 7 (by decide)).2⟩

theorem natsLt_irrefl (a : List Nat) : natsLt a a = false := by
  induction a with
  | nil => rfl
  | cons x as ih => simp [natsLt, ih]

theorem natsLt_asymm (a b : List Nat) (h : natsLt a b = true) : natsLt b a = false := by
  induction a generalizing b with
  | nil => cases b <;> simp_all [natsLt]
  | cons x as ih =>
    cases b with
    | nil => simp [natsLt] at h
    | cons y bs =>
      by_cases hxy : x = y
      · subst hxy
        simp only [natsLt, if_pos rfl] at h ⊢
        exact ih bs h
      · have hyx : y ≠ x := fun hyx => hxy hyx.symm
        simp only [natsLt, if_neg hxy, decide_eq_true_eq] at h
        simp only [natsLt, if_neg hyx, decide_eq_false_iff_not]
        omega

theorem natsLt_conn (a b : List Nat) (h1 : natsLt a b = false)
    (h2 : natsLt b a = false) : a = b := by
  induction a generalizing b with
  | nil => cases b <;> simp_all [natsLt]
  | cons x as ih =>
    cases b with
    | nil => simp [natsLt] at h2
    | cons y bs =>
      by_cases hxy : x = y
      · subst hxy
        simp only [natsLt, if_pos rfl] at h1 h2
        rw [ih bs h1 h2]
      · have hyx : y ≠ x := fun hyx => hxy hyx.symm
        simp only [natsLt, if_neg hxy, decide_eq_false_iff_not] at h1
        simp only [natsLt, if_neg hyx, decide_eq_false_iff_not] at h2
        omega

theorem natsLt_trans (a b c : List Nat) (h1 : natsLt a b = true)
    (h2 : natsLt b c = true) : natsLt a c = true := by
  induction a generalizing b c with
  | nil =>
    cases b with
    | nil => simp [natsLt] at h1
    | cons y bs =>
      cases c with
      | nil => simp [natsLt] at h2
      | cons z cs => simp [natsLt]
  | cons x as ih =>
    cases b with
    | nil => simp [natsLt] at h1
    | cons y bs =>
      cases c with
      | nil => simp [natsLt] at h2
      | cons z cs =>
        by_cases hxy : x = y <;> by_cases hyz : y = z
        · subst hxy hyz
          simp only [natsLt, if_pos rfl] at h1 h2 ⊢
          exact ih bs cs h1 h2
        · subst hxy
          simp only [natsLt, if_neg hyz, decide_eq_true_eq] at h2
          have hxz : x ≠ z := by omega
          simp only [natsLt, if_neg hxz, decide_eq_true_eq]
          omega
        · subst hyz
          simp only [natsLt, if_neg hxy, decide_eq_true_eq] at h1
          have hxz : x ≠ y := hxy
          simp only [natsLt, if_neg hxy, decide_eq_true_eq]
          omega
        · simp only [natsLt, if_neg hxy, decide_eq_true_eq] at h1
          simp only [natsLt, if_neg hyz, decide_eq_true_eq] at h2
          have hxz : x ≠ z := by omega
          simp only [natsLt, if_neg hxz, decide_eq_true_eq]
          omega

theorem itemLe_refl (a : WorkItem) : itemLe a a = true := by
  simp [itemLe, itemLt, natsLt_irrefl]

theorem itemLe_total (x m : WorkItem) (h : itemLe x m = false) : itemLe m x = true := by
  simp only [itemLe, itemLt, Bool.not_eq_false, Bool.not_eq_true'] at h ⊢
  exact natsLt_asymm _ _ (by simpa using h)

theorem itemLe_trans (a b c : WorkItem) (h1 : itemLe a b = true)
    (h2 : itemLe b c = true) : itemLe a c = true := by
  simp only [itemLe, itemLt, Bool.not_eq_true'] at h1 h2 ⊢
  by_cases hca : natsLt (itemKey c) (itemKey a) = true
  · exfalso
    by_cases hbc : natsLt (itemKey b) (itemKey c) = true
    · have hba := natsLt_trans _ _ _ hbc hca
      rw [hba] at h1
      cases h1
    · have hbc' : natsLt (itemKey b) (itemKey c) = false := by simpa using hbc
      have heq := natsLt_conn _ _ hbc' h2
      rw [← heq] at hca
      rw [hca] at h1
      cases h1
  · simpa using hca

theorem popMin_eq_none_iff (q : List WorkItem) : popMin q = none ↔ q = [] := by
  cases q with
  | nil => simp [popMin]
  | cons x xs =>
    simp only [popMin]
    cases popMin xs with
    | none => simp
    | some p =>
      obtain ⟨m, rest⟩ := p
      by_cases h : itemLe x m = true <;> simp [h]

theorem popMin_min (q : List WorkItem) :
    ∀ m rest, popMin q = some (m, rest) → ∀ x ∈ q, itemLe m x = true := by
  induction q with
  | nil => intro m rest h; simp [popMin] at h
  | cons x xs ih =>
    intro m rest h
    simp only [popMin] at h
    cases hxs : popMin xs with
    | none =>
      rw [hxs] at h
      have hnil := (popMin_eq_none_iff xs).mp hxs
      subst hnil
      simp only [Option.some.injEq, Prod.mk.injEq] at h
      obtain ⟨rfl, rfl⟩ := h
      intro y hy
      simp only [List.mem_cons, List.not_mem_nil, or_false] at hy
      subst hy
      exact itemLe_refl _
    | some p =>
      obtain ⟨m', rest'⟩ := p
      rw [hxs] at h
      by_cases hle : itemLe x m' = true
      · simp only [if_pos hle, Option.some.injEq, Prod.mk.injEq] at h
        obtain ⟨rfl, rfl⟩ := h
        intro y hy
        rcases List.mem_cons.mp hy with hy | hy
        · subst hy; exact itemLe_refl _
        · exact itemLe_trans x m' y hle (ih m' rest' hxs y hy)
      · simp only [if_neg hle, Option.some.injEq, Prod.mk.injEq] at h
        obtain ⟨rfl, rfl⟩ := h
        intro y hy
        rcases List.mem_cons.mp hy with hy | hy
        · subst hy
          exact itemLe_total _ m' (by simpa using hle)
        · exact ih m' rest' hxs y hy

theorem popMin_perm (q : List WorkItem) :
    ∀ m rest, popMin q = some (m, rest) → (m :: rest).Perm q := by
  induction q with
  | nil => intro m rest h; simp [popMin] at h
  | cons x xs ih =>
    intro m rest h
    simp only [popMin] at h
    cases hxs : popMin xs with
    | none =>
      rw [hxs] at h
      have hnil := (popMin_eq_none_iff xs).mp hxs
      subst hnil
      simp only [Option.some.injEq, Prod.mk.injEq] at h
      obtain ⟨rfl, rfl⟩ := h
      exact List.Perm.refl _
    | some p =>
      obtain ⟨m', rest'⟩ := p
      rw [hxs] at h
      by_cases hle : itemLe x m' = true
      · simp only [if_pos hle, Option.some.injEq, Prod.mk.injEq] at h
        obtain ⟨rfl, rfl⟩ := h
        exact List.Perm.refl _
      · simp only [if_neg hle, Option.some.injEq, Prod.mk.injEq] at h
        obtain ⟨rfl, rfl⟩ := h
        exact (List.Perm.swap x m' rest').trans ((ih m' rest' hxs).cons x)

theorem itemLe_priority (a b : WorkItem) (h : itemLe a b = true) :
    a.priority ≤ b.priority := by
  simp only [itemLe, itemLt, itemKey, Bool.not_eq_true'] at h
  by_cases hp : b.priority = a.priority
  · omega
  · simp only [natsLt, if_neg hp, decide_eq_false_iff_not] at h
    omega

/-- C4 counterexample: two foreground (priority 0) items enqueued in this
order — page 5 first, then page 2 — are not served in enqueue order: the
first pop returns the second-enqueued item, because Python's
`PriorityQueue` orders by the whole tuple (page index second), not by
arrival. -/
theorem work_queue_same_priority_not_fifo :
    popMin [⟨0, 5, 100, 100, false, 0⟩, ⟨0, 2, 100, 100, false, 0⟩]
      = some (⟨0, 2, 100, 100, false, 0⟩, [⟨0, 5, 100, 100, false, 0⟩])
    ∧ (⟨0, 5, 100, 100, false, 0⟩ : WorkItem).priority
        = (⟨0, 2, 100, 100, false, 0⟩ : WorkItem).priority := by
  decide

/-- C4 (amended): a pop from a nonempty work queue returns a minimal item
under the full lexicographic tuple order `(priority, page_index, width,
height, preload, generation)` and leaves the rest; a foreground
(priority 0) item is therefore always served before any speculative
(priority 1) item, but items of equal priority are served in ascending
tuple order (page index first), not enqueue order. -/
theorem work_queue_pop_priority_order :
    (∀ (q : List WorkItem) (m : WorkItem) (rest : List WorkItem),
        popMin q = some (m, rest) →
        (∀ x ∈ q, itemLe m x = true) ∧ (m :: rest).Perm q)
    ∧ (∀ (q : List WorkItem) (m : WorkItem) (rest : List WorkItem),
        popMin q = some (m, rest) →
        (∃ x ∈ q, x.priority = 0) → m.priority = 0)
    ∧ (∀ q : List WorkItem, popMin q = none ↔ q = []) := by
  refine ⟨fun q m rest h => ⟨popMin_min q m rest h, popMin_perm q m rest h⟩,
    ?_, popMin_eq_none_iff⟩
  intro q m rest h hx
  obtain ⟨x, hxq, hx0⟩ := hx
  have := itemLe_priority m x (popMin_min q m rest h x hxq)
  omega

/-- Witness for C4: with a speculative item ahead of a foreground item in
the queue, the pop returns the foreground item. -/
theorem work_queue_pop_priority_order_witness :
    (∀ x ∈ [(⟨1, 7, 100, 100, true, 0⟩ : WorkItem), ⟨0, 3, 100, 100, false, 2⟩],
        itemLe ⟨0, 3, 100, 100, false, 2⟩ x = true)
    ∧ (⟨0, 3, 100, 100, false, 2⟩ : WorkItem).priority = 0 :=
  ⟨(work_queue_pop_priority_order.1
      [⟨1, 7, 100, 100, true, 0⟩, ⟨0, 3, 100, 100, false, 2⟩]
      ⟨0, 3, 100, 100, false, 2⟩ [⟨1, 7, 100, 100, true, 0⟩] (by decide)).1,
    work_queue_pop_priority_order.2.1
      [⟨1, 7, 100, 100, true, 0⟩, ⟨0, 3, 100, 100, false, 2⟩]
      ⟨0, 3, 100, 100, false, 2⟩ [⟨1, 7, 100, 100, true, 0⟩] (by decide)
      ⟨⟨0, 3, 100, 100, false, 2⟩, by decide, rfl⟩⟩

/-- C6: enqueuing into a work queue already holding `maxsize = 4` items
does not block or raise (`queue.Full` is caught) and leaves the queue
unchanged — the new item is simply absent, the queued items untouched;
enqueues never grow the queue past the capacity, and a non-full enqueue
appends the new item. -/
theorem work_queue_full_enqueue_drops :
    (∀ (q : List WorkItem) (idx wd ht : Nat) (pl : Bool) (g : Nat),
        q.length = imageWorkerQueueMaxsize →
        requestPage q idx wd ht pl g = q)
    ∧ (∀ (q : List WorkItem) (idx wd ht : Nat) (pl : Bool) (g : Nat),
        q.length ≤ imageWorkerQueueMaxsize →
        (requestPage q idx wd ht pl g).length ≤ imageWorkerQueueMaxsize)
    ∧ (∀ (q : List WorkItem) (idx wd ht : Nat) (pl : Bool) (g : Nat),
        q.length < imageWorkerQueueMaxsize →
        requestPage q idx wd ht pl g
          = q ++ [⟨if pl then 1 else 0, idx, wd, ht, pl, g⟩]) := by
  refine ⟨?_, ?_, ?_⟩
  · intro q idx wd ht pl g hfull
    rw [requestPage, if_pos (le_of_eq hfull.symm)]
  · intro q idx wd ht pl g hle
    rw [requestPage]
    by_cases hfull : imageWorkerQueueMaxsize ≤ q.length
    · rw [if_pos hfull]; exact hle
    · rw [if_neg hfull]
      simp only [List.length_append, List.length_cons, List.length_nil]
      omega
  · intro q idx wd ht pl g hlt
    rw [requestPage, if_neg (Nat.not_le.mpr hlt)]

/-- Witness for C6: a full queue of four foreground items is unchanged by
a fifth enqueue. -/
theorem work_queue_full_enqueue_drops_witness :
    requestPage [⟨0, 0, 1, 1, false, 0⟩, ⟨0, 1, 1, 1, false, 0⟩,
        ⟨0, 2, 1, 1, false, 0⟩, ⟨0, 3, 1, 1, false, 0⟩] 9 640 480 false 5
      = [⟨0, 0, 1, 1, false, 0⟩, ⟨0, 1, 1, 1, false, 0⟩,
        ⟨0, 2, 1, 1, false, 0⟩, ⟨0, 3, 1, 1, false, 0⟩] :=
  work_queue_full_enqueue_drops.1 _ 9 640 480 false 5 (by decide)

/-- C1 counterexample: a pipeline trace in which a worker result produced
for generation 0 is cached and displayed while the current render
generation is 2. Page 0 is requested at generation 0; a worker dequeues
it (the dequeue-time generation check passes); before the scheduled UI
callback runs, the user navigates to page 1 (generation 1) and back to
page 0 (generation 2); the callback then finds `page_index = current
index` — the only check `_update_from_cache` makes — and caches and
displays the stale-generation result. -/
theorem stale_generation_applied_counterexample :
    (popMin demoS1.queue).map (fun p => (p.1.gen, p.1.index, p.1.preload))
      = some (0, 0, false)
    ∧ demoS5.viewer.renderGeneration = 2
    ∧ demoS5.viewer.displayed = some demoImg
    ∧ lookupKey (0, 800, 600) demoS5.viewer.imageCache.cache = some demoImg := by
  decide

/-- C1 (amended): the stale-generation check runs on the worker thread at
dequeue time and skips non-speculative items whose generation differs
from the current one; the UI-thread apply checks only that the result's
`page_index` equals the currently displayed index (no generation check
at completion time). In the spec's scenario — request at generation G for
index 0, navigate to index 1 before the callback runs — the stale result
is discarded by the index check; but a stale-generation result can still
be applied when navigation has returned to its index (see the
counterexample). -/
theorem stale_results_worker_generation_ui_index_checks :
    (∀ (appGen : Nat) (src : PageSourceM) (item : WorkItem),
        item.preload = false → item.gen ≠ appGen →
        workerProcess appGen src item = none)
    ∧ (∀ (st : ViewerState) (idx : Nat) (img : ResizedImage),
        idx ≠ st.currentIndex → updateFromCache st idx img = st)
    ∧ (uiStep demoS3).viewer.displayed = none
    ∧ (uiStep demoS3).viewer.imageCache.cache = []
    ∧ demoS3.viewer.renderGeneration = 1 ∧ demoS3.viewer.currentIndex = 1 := by
  refine ⟨?_, ?_, by decide, by decide, by decide, by decide⟩
  · intro appGen src item hpl hgen
    simp [workerProcess, hpl, hgen]
  · intro st idx img h
    cases hs : st.source with
    | none => simp [updateFromCache, hs]
    | some src => simp [updateFromCache, hs, h]

/-- Witness for the amended C1: a concrete stale non-speculative item is
skipped by the worker, and a concrete mismatched index is discarded by
the UI apply. -/
theorem stale_results_worker_generation_ui_index_checks_witness :
    workerProcess 5 demoSource ⟨0, 0, 800, 600, false, 3⟩ = none
    ∧ updateFromCache demoStart.viewer 1 demoImg = demoStart.viewer :=
  ⟨stale_results_worker_generation_ui_index_checks.1 5 demoSource
      ⟨0, 0, 800, 600, false, 3⟩ rfl (by decide),
    stale_results_worker_generation_ui_index_checks.2.1 demoStart.viewer 1 demoImg
      (by decide)⟩

/-- C8: speculative preloads are enqueued with generation 0 regardless of
the current render generation (`request_page`'s omitted
`render_generation` defaults to 0), and the worker's stale-generation
check applies only to non-speculative items: a dequeued speculative item
with a valid page index and readable bytes is always fetched, decoded and
handed to the UI thread, whatever the current generation. -/
theorem speculative_preloads_bypass_generation_check :
    (∀ (s : SysState) (idx : Nat), s.queue.length < imageWorkerQueueMaxsize →
        (preloadOp s idx).queue = s.queue ++
          [⟨1, idx, max 1 s.viewer.canvasW, max 1 s.viewer.canvasH, true, 0⟩])
    ∧ (∀ (appGen : Nat) (src : PageSourceM) (item : WorkItem) (name : List Char)
        (raw : List Nat), item.preload = true →
        src.pages.get? item.index = some name → src.getBytes name = some raw →
        workerProcess appGen src item
          = some (item.index, getResizedPil raw item.width item.height)) := by
  constructor
  · intro s idx hlen
    simp [preloadOp, requestPage, Nat.not_le.mpr hlen]
  · intro appGen src item name raw hpl hname hraw
    unfold workerProcess
    rw [hpl, hname]
    simp [hraw]

/-- Witness for C8: at current generation 7 the preload enqueues a
generation-0 item, and a worker at generation 99 still processes it. -/
theorem speculative_preloads_bypass_generation_check_witness :
    (preloadOp preloadDemoState 1).queue = preloadDemoState.queue ++
      [⟨1, 1, max 1 preloadDemoState.viewer.canvasW,
        max 1 preloadDemoState.viewer.canvasH, true, 0⟩]
    ∧ workerProcess 99 demoSource ⟨1, 1, 640, 480, true, 0⟩
      = some (1, getResizedPil ("p2.jpg".toList.map Char.toNat) 640 480) :=
  ⟨speculative_preloads_bypass_generation_check.1 preloadDemoState 1 (by decide),
    speculative_preloads_bypass_generation_check.2 99 demoSource
      ⟨1, 1, 640, 480, true, 0⟩ "p2.jpg".toList ("p2.jpg".toList.map Char.toNat)
      rfl (by decide) rfl⟩

/-- C3 counterexample: a 100x1000 source image resized into a 50x50
target box comes out 50x500 — the claimed min-scale fit (which would give
5x50) is not what the code computes, and the output height grossly
exceeds the target height. -/
theorem resize_fit_target_box_counterexample :
    resizeWithPillowDims 100 1000 50 50 = (50, 500) ∧ ¬(500 ≤ 50) := by
  decide

/-- C3 (amended): both resize implementations derive the scale from the
width alone (`scale = width / orig_w`); the `target_height` argument is
ignored entirely, the output width equals `target_width`, and the output
height is `orig_h` scaled by the same factor (truncated, floored at 1) —
so aspect ratio is preserved relative to the width, but the output height
may exceed `target_height`. -/
theorem resize_scales_by_width_alone (origW origH width ht ht' : Nat)
    (hW : 0 < origW) (h1 : 1 ≤ origH * width / origW) :
    resizeWithPillowDims origW origH width ht = resizeWithPillowDims origW origH width ht'
    ∧ (resizeWithPillowDims origW origH width ht).1 = width
    ∧ origW * (resizeWithPillowDims origW origH width ht).2 ≤ origH * width
    ∧ origH * width < origW * ((resizeWithPillowDims origW origH width ht).2 + 1) := by
  have hq : (resizeWithPillowDims origW origH width ht).2 = origH * width / origW := by
    simp only [resizeWithPillowDims]
    exact max_eq_right h1
  refine ⟨rfl, rfl, ?_, ?_⟩
  · rw [hq]
    calc origW * (origH * width / origW) = origH * width / origW * origW :=
          Nat.mul_comm _ _
      _ ≤ origH * width := Nat.div_mul_le_self _ _
  · have hmod := Nat.div_add_mod (origH * width) origW
    have hr : origH * width % origW < origW := Nat.mod_lt _ hW
    rw [hq, Nat.mul_succ]
    calc origH * width
        = origW * (origH * width / origW) + origH * width % origW := hmod.symm
      _ < origW * (origH * width / origW) + origW := Nat.add_lt_add_left hr _

/-- Witness for the amended C3 at the counterexample input. -/
theorem resize_scales_by_width_alone_witness :
    resizeWithPillowDims 100 1000 50 50 = resizeWithPillowDims 100 1000 50 999
    ∧ (resizeWithPillowDims 100 1000 50 50).1 = 50
    ∧ 100 * (resizeWithPillowDims 100 1000 50 50).2 ≤ 1000 * 50
    ∧ 1000 * 50 < 100 * ((resizeWithPillowDims 100 1000 50 50).2 + 1) :=
  resize_scales_by_width_alone 100 1000 50 50 999 (by decide) (by decide)

/-- C7: `load_cbz` sorts text/info entries by natural key ahead of image
entries sorted by natural key; the archive `readme.txt, page2.jpg,
page10.jpg, page1.jpg` yields exactly `[readme.txt, page1.jpg, page2.jpg,
page10.jpg]`; and a successful load never produces an empty page list —
an archive with no recognized entries fails with an error instead. -/
theorem load_cbz_text_then_images_nonempty :
    loadCbzPages ["readme.txt".toList, "page2.jpg".toList, "page10.jpg".toList,
        "page1.jpg".toList]
      = .ok ["readme.txt".toList, "page1.jpg".toList, "page2.jpg".toList,
        "page10.jpg".toList]
    ∧ (∀ names pages, loadCbzPages names = .ok pages →
        pages ≠ [] ∧
        pages = sortByNaturalKey
            ((names.filter (fun n => !(n.getLast? == some '/'))).filter isTextName)
          ++ sortByNaturalKey
            ((names.filter (fun n => !(n.getLast? == some '/'))).filter isImageName)) := by
  refine ⟨by rfl, ?_⟩
  intro names pages h
  simp only [loadCbzPages] at h
  split at h
  next => cases h
  next hempty =>
    injection h with hpq
    subst hpq
    refine ⟨?_, rfl⟩
    intro hnil
    exact hempty (by rw [hnil]; rfl)

/-- Witness for C7 at a one-entry archive. -/
theorem load_cbz_text_then_images_nonempty_witness :
    (["a.txt".toList] : List (List Char)) ≠ []
    ∧ (["a.txt".toList] : List (List Char)) = sortByNaturalKey
        (((["a.txt".toList] : List (List Char)).filter
          (fun n => !(n.getLast? == some '/'))).filter isTextName)
      ++ sortByNaturalKey
        (((["a.txt".toList] : List (List Char)).filter
          (fun n => !(n.getLast? == some '/'))).filter isImageName) :=
  load_cbz_text_then_images_nonempty.2 ["a.txt".toList] ["a.txt".toList] (by rfl)

/-- C10: wrapping a single image file yields the one-page source whose
`get_bytes` ignores its argument and returns the file's bytes for every
requested name — names absent from `pages` included — and never fails
with `NotFound`; a non-image path is rejected at construction. -/
theorem single_image_source_get_bytes_total :
    (∀ (fileName : List Char) (fileBytes : List Nat), isImageName fileName = true →
        ∃ ps, loadImageFile true fileName fileBytes = .ok ps
          ∧ ps.pages = [fileName]
          ∧ ∀ q : List Char, ps.getBytes q = some fileBytes)
    ∧ loadImageFile false "x.png".toList [1, 2]
      = .error "Not an image file".toList := by
  constructor
  · intro fileName fileBytes him
    refine ⟨⟨[fileName], fun _ => some fileBytes⟩, ?_, rfl, fun _ => rfl⟩
    simp [loadImageFile, him]
  · rfl

/-- Witness for C10 at `x.png`. -/
theorem single_image_source_get_bytes_total_witness :
    ∃ ps, loadImageFile true "x.png".toList [7] = .ok ps
      ∧ ps.pages = ["x.png".toList]
      ∧ ∀ q : List Char, ps.getBytes q = some [7] :=
  single_image_source_get_bytes_total.1 "x.png".toList [7] (by decide)

end CDisplayAgain
